import Mathlib

/-!
Verification of eslint-plugin-jsonv against its specification.

The adapter (src/index.mjs) is shallowly embedded below.  JavaScript
runtime values the adapter inspects (thrown exception values, option
records) are modelled explicitly; a JavaScript exception propagating out
of a piece of code is modelled by `Except.error`, a normal return by
`Except.ok`.  The external `@cldmv/jsonv` `parseWithOptions` import is a
parameter of the embedded `parse`, since that code lives outside this
repository.
-/

/-- A JavaScript runtime value, as far as the adapter inspects one:
thrown exception values and property bags. -/
inductive JSVal where
  | undefined
  | null
  | bool (b : Bool)
  | num (n : Int)
  | str (s : String)
  | obj (fields : List (String × JSVal))

/-- JavaScript property access `v.f`: throws a TypeError when `v` is
`null` or `undefined`; yields the field on objects, and `undefined` on
boxed primitives (which own none of the fields the adapter reads). -/
def getProp (v : JSVal) (name : String) : Except JSVal JSVal :=
  match v with
  | .undefined => .error (.str "TypeError: cannot read properties of undefined")
  | .null => .error (.str "TypeError: cannot read properties of null")
  | .obj fields => .ok (((fields.find? (fun p => p.1 == name)).map (fun p => p.2)).getD .undefined)
  | _ => .ok .undefined

/-- JavaScript truthiness of the modelled values. -/
def jsTruthy : JSVal → Bool
  | .undefined => false
  | .null => false
  | .bool b => b
  | .num n => n != 0
  | .str s => s != ""
  | .obj _ => true

/-- JavaScript `a || b`. -/
def jsOr (a b : JSVal) : JSVal := if jsTruthy a then a else b

/-- The `languageOptions` record an ESLint user may supply; every field
is optional (src/index.mjs reads only `year` and `strictBigInt`). -/
structure LangOptions where
  year : Option Int := none
  strictBigInt : Option Bool := none
  mode : Option String := none
  preserveComments : Option Bool := none
  tolerant : Option Bool := none
  deriving DecidableEq, Repr

/-- The fully-determined options record passed to `parseWithOptions`. -/
structure ParserOptions where
  year : Int
  strictBigInt : Bool
  mode : String
  preserveComments : Bool
  tolerant : Bool
  deriving DecidableEq, Repr

/-- The options record the adapter builds for `parseWithOptions`
(src/index.mjs lines 62-68): `options.year || 2025` (a missing or `0`
year becomes 2025), `options.strictBigInt !== undefined ?
options.strictBigInt : false`, and hard-coded `mode: "jsonv"`,
`preserveComments: true`, `tolerant: false`. -/
def computeParserOptions (o : LangOptions) : ParserOptions :=
  { year := match o.year with
      | none => 2025
      | some y => if y = 0 then 2025 else y
    strictBigInt := o.strictBigInt.getD false
    mode := "jsonv"
    preserveComments := true
    tolerant := false }

/-- The ESLint file object handed to `parse`; `path` stands for the
fields other than `body` that the adapter never reads. -/
structure JsFile where
  body : String
  path : String

/-- The ESLint context handed to `parse`; `cwd` stands for the fields
other than `languageOptions` that the adapter never reads. -/
structure JsContext where
  languageOptions : Option LangOptions := none
  cwd : String := ""

/-- The minimal ESTree AST returned on success (src/index.mjs 73-79). -/
structure EstreeProgram where
  type : String
  body : List JSVal
  sourceType : String
  comments : List JSVal
  tokens : List JSVal

/-- The constant AST value built at src/index.mjs lines 73-79. -/
def emptyProgramAst : EstreeProgram :=
  { type := "Program", body := [], sourceType := "module", comments := [], tokens := [] }

/-- The structured error element the adapter returns: exactly the fields
`message`, `line`, `column` (src/index.mjs lines 88-92). -/
structure LintError where
  message : JSVal
  line : JSVal
  column : JSVal

/-- The value `parse` returns: `{ok: true, ast, jsonvValue}` or
`{ok: false, errors}`. -/
inductive ParseReturn where
  | success (ast : EstreeProgram) (jsonvValue : JSVal)
  | failure (errors : List LintError)

namespace jsonvLanguage

/-- src/index.mjs line 42. -/
def fileType : String := "text"

/-- src/index.mjs line 44: line numbering starts at 1. -/
def lineStart : Int := 1

/-- src/index.mjs line 46: column numbering starts at 1. -/
def columnStart : Int := 1

/-- src/index.mjs line 48. -/
def nodeTypeKey : String := "type"

/-- The `catch (error)` block of `parse` (src/index.mjs lines 83-95):
reads `error.message`, `error.line || 1`, `error.column || 1` and
returns the `ok: false` result.  Each property read may itself throw (a
TypeError when the thrown value is `null` or `undefined`), and such a
secondary exception propagates. -/
def catchClause (e : JSVal) : Except JSVal ParseReturn :=
  match getProp e "message" with
  | .error t => .error t
  | .ok msg =>
    match getProp e "line" with
    | .error t => .error t
    | .ok ln =>
      match getProp e "column" with
      | .error t => .error t
      | .ok col => .ok (.failure [⟨msg, jsOr ln (.num 1), jsOr col (.num 1)⟩])

/-- `jsonvLanguage.parse` (src/index.mjs lines 56-96), with the external
`parseWithOptions` as the parameter `pw`. -/
def parse (pw : String → ParserOptions → Except JSVal JSVal)
    (file : JsFile) (context : JsContext) : Except JSVal ParseReturn :=
  match pw file.body (computeParserOptions (context.languageOptions.getD {})) with
  | .ok result => .ok (.success emptyProgramAst result)
  | .error e => catchClause e

/-- `validateLanguageOptions` (src/index.mjs lines 183-186): an empty
function body — it inspects nothing, throws nothing, returns
`undefined`. -/
def validateLanguageOptions : JSVal → Except JSVal JSVal :=
  fun _ => .ok .undefined

end jsonvLanguage

/-- A `parseWithOptions` stub that throws the JavaScript value `null`. -/
def throwNullParse : String → ParserOptions → Except JSVal JSVal :=
  fun _ _ => .error .null

/-- A `parseWithOptions` stub that throws a primitive (non-Error) value. -/
def throwStrParse : String → ParserOptions → Except JSVal JSVal :=
  fun _ _ => .error (.str "boom")

/-- A thrown error object following the documented structured-error
contract. -/
def errObjA : JSVal :=
  .obj [("message", .str "Unexpected token"), ("line", .num 2), ("column", .num 5)]

/-- A `parseWithOptions` stub that throws `errObjA`. -/
def throwErrObjParse : String → ParserOptions → Except JSVal JSVal :=
  fun _ _ => .error errObjA

/-- A `parseWithOptions` stub that succeeds, echoing the input text. -/
def echoParse : String → ParserOptions → Except JSVal JSVal :=
  fun t _ => .ok (.str t)

/-- A concrete file object. -/
def fileA : JsFile := ⟨"x", "a.jsonv"⟩

/-- A file object with the same body as `fileA` but another path. -/
def fileB : JsFile := ⟨"x", "b.jsonv"⟩

/-- A concrete context. -/
def ctxA : JsContext := ⟨none, "p"⟩

/-- A context with the same languageOptions as `ctxA` but another cwd. -/
def ctxB : JsContext := ⟨none, "q"⟩

/-- Membership in the character class of the split regex at
src/index.mjs lines 115 and 157: newline, carriage return, U+2028 line
separator, U+2029 paragraph separator. -/
def isLineBreakChar (c : Char) : Bool :=
  c == '\n' || c == '\r' || c == '\u2028' || c == '\u2029'

/-- The split on the five line-break forms (src/index.mjs lines 115 and
157), scanning left to right with the alternative `\r\n` preferred, so a
`\r\n` pair is consumed as one separator.  `acc` holds the characters of
the current line in reverse. -/
def splitLinesAux (acc : List Char) : List Char → List (List Char)
  | [] => [acc.reverse]
  | c :: rest =>
    if isLineBreakChar c then
      if c = '\r' then
        match rest with
        | [] => [acc.reverse, []]
        | c2 :: rest2 =>
          if c2 = '\n' then acc.reverse :: splitLinesAux [] rest2
          else acc.reverse :: splitLinesAux [] (c2 :: rest2)
      else acc.reverse :: splitLinesAux [] rest
    else splitLinesAux (c :: acc) rest

/-- The split of a whole text into lines. -/
def splitLines (text : List Char) : List (List Char) := splitLinesAux [] text

/-- A node as the source-code helper methods see one: only its optional
`range` matters to them. -/
structure ENode where
  range : Option (Int × Int) := none

/-- JavaScript `String.prototype.slice` index normalization: a negative
index counts from the end, and both indices are clamped to
`[0, length]`. -/
def jsSliceIndex (len : Nat) (i : Int) : Nat :=
  if i < 0 then (max ((len : Int) + i) 0).toNat else min i.toNat len

/-- JavaScript `text.slice(s, e)` over the character list model. -/
def jsSlice (text : List Char) (s e : Int) : List Char :=
  (text.drop (jsSliceIndex text.length s)).take
    (jsSliceIndex text.length e - jsSliceIndex text.length s)

namespace jsonvLanguage

/-- The `getText` method of the source-code object (src/index.mjs lines
148-154): `text.slice(Math.max(0, start - (beforeCount || 0)),
Math.min(text.length, end + (afterCount || 0)))` when the node exists
and has a range, the whole text otherwise. -/
def getText (text : List Char) (node : Option ENode)
    (beforeCount afterCount : Option Int) : List Char :=
  match node with
  | some n =>
    match n.range with
    | some (s, e) =>
      jsSlice text (max 0 (s - beforeCount.getD 0))
        (min (text.length : Int) (e + afterCount.getD 0))
    | none => text
  | none => text

/-- The `getLines` method (src/index.mjs lines 156-158): recomputes the
same split of the stored text. -/
def getLines (text : List Char) : List (List Char) := splitLines text

/-- The source-code object built by `createSourceCode` (src/index.mjs
lines 108-160).  The body is a string in this model, so the
`typeof file.body === "string"` guard always takes its first branch; the
`ast` field is `parseResult.ast`, which is undefined (`none`) on a
failed parse result.  The `getText` and `getLines` methods close over
`text` and are modelled by the standalone functions above. -/
structure SourceCode where
  text : List Char
  ast : Option EstreeProgram
  lines : List (List Char)
  hasBOM : Bool

/-- `createSourceCode` (src/index.mjs lines 108-160). -/
def createSourceCode (file : JsFile) (parseResult : ParseReturn) : SourceCode :=
  { text := file.body.data
    ast := match parseResult with
      | .success a _ => some a
      | .failure _ => none
    lines := splitLines file.body.data
    hasBOM := match file.body.data.head? with
      | some c => c.toNat == 0xfeff
      | none => false }

end jsonvLanguage

/-! The external parser `@cldmv/jsonv` is not part of this repository —
only the adapter above calls it — so the pieces exercised by the
remaining claims are modelled from the spec (sections 4.1-4.4): a lexer
with 1-based line/column tracking, a recursive-descent object parser,
and a three-color depth-first reference resolver, restricted to the
bare-identifier-reference fragment with a flat root-object namespace. -/

/-- Modelled from the spec: token kinds of the lexer fragment. -/
inductive TokKind where
  | lbrace
  | rbrace
  | colon
  | comma
  | ident
  | number
  | eoi
  deriving DecidableEq, Repr

/-- Modelled from the spec: a token with its raw text and 1-based start
line and column. -/
structure Token where
  kind : TokKind
  text : List Char
  line : Nat
  col : Nat
  deriving DecidableEq, Repr

/-- Modelled from the spec (section 7): the external parser's error
kinds — LexError and SyntaxError, each with a 1-based position, and
ReferenceError of kind Undefined (with the missing path) or Circular
(with a cycle path). -/
inductive ModelError where
  | lexError (line col : Nat)
  | synError (line col : Nat)
  | refUndefined (path : String)
  | refCircular (cyclePath : List String)
  deriving DecidableEq, Repr

/-- Modelled from the spec: a resolved scalar value. -/
inductive Scalar where
  | num (n : Int)
  | boolVal (b : Bool)
  | nullVal
  deriving DecidableEq, Repr

/-- Modelled from the spec: a parsed value of the flat fragment — a
scalar or a bare-identifier reference to a top-level key. -/
inductive JValue where
  | scalar (s : Scalar)
  | ref (k : String)
  deriving DecidableEq, Repr

/-- Characters that may continue an identifier. -/
def isIdentChar (c : Char) : Bool := c.isAlphanum || c == '_'

/-- Decimal decoding of a digit run. -/
def decodeDigits (cs : List Char) : Int :=
  cs.foldl (fun acc d => acc * 10 + ((d.toNat : Int) - 48)) 0

/-- Modelled from the spec (section 4.1): the lexer, tracking 1-based
line and column; the five line-break forms advance the line and reset
the column, with `\r\n` counting as one break; spaces and tabs advance
the column; an unrecognized character is a LexError at its position. -/
def tokenizeAux (fuel line col : Nat) (l : List Char) : Except ModelError (List Token) :=
  match fuel, l with
  | _, [] => .ok [⟨.eoi, [], line, col⟩]
  | 0, _ :: _ => .error (.lexError 0 0)
  | fuel + 1, c :: rest =>
    if isLineBreakChar c then
      if c = '\r' then
        match rest with
        | [] => .ok [⟨.eoi, [], line + 1, 1⟩]
        | c2 :: rest2 =>
          if c2 = '\n' then tokenizeAux fuel (line + 1) 1 rest2
          else tokenizeAux fuel (line + 1) 1 (c2 :: rest2)
      else tokenizeAux fuel (line + 1) 1 rest
    else if c == ' ' || c == '\t' then tokenizeAux fuel line (col + 1) rest
    else if c == '{' then
      (tokenizeAux fuel line (col + 1) rest).map (⟨.lbrace, [c], line, col⟩ :: ·)
    else if c == '}' then
      (tokenizeAux fuel line (col + 1) rest).map (⟨.rbrace, [c], line, col⟩ :: ·)
    else if c == ':' then
      (tokenizeAux fuel line (col + 1) rest).map (⟨.colon, [c], line, col⟩ :: ·)
    else if c == ',' then
      (tokenizeAux fuel line (col + 1) rest).map (⟨.comma, [c], line, col⟩ :: ·)
    else if c.isAlpha || c == '_' then
      (tokenizeAux fuel line (col + 1 + (rest.takeWhile isIdentChar).length)
          (rest.dropWhile isIdentChar)).map
        (⟨.ident, c :: rest.takeWhile isIdentChar, line, col⟩ :: ·)
    else if c.isDigit then
      (tokenizeAux fuel line (col + 1 + (rest.takeWhile Char.isDigit).length)
          (rest.dropWhile Char.isDigit)).map
        (⟨.number, c :: rest.takeWhile Char.isDigit, line, col⟩ :: ·)
    else .error (.lexError line col)

/-- Modelled from the spec: tokenize a whole text from line 1, column 1.
The fuel starts at the text length and every recursive step of
`tokenizeAux` consumes at least one character, so the fuel-exhaustion
branch is never taken from here. -/
def tokenize (text : List Char) : Except ModelError (List Token) :=
  tokenizeAux text.length 1 1 text

/-- Modelled from the spec (section 4.2 value production): a value token
is a number literal, one of the keywords true/false/null, or a bare
identifier reference; any other token is a SyntaxError at that token's
position (the offending token's source range). -/
def valueOfToken (t : Token) : Except ModelError JValue :=
  match t.kind with
  | .number => .ok (.scalar (.num (decodeDigits t.text)))
  | .ident =>
    if t.text = "true".data then .ok (.scalar (.boolVal true))
    else if t.text = "false".data then .ok (.scalar (.boolVal false))
    else if t.text = "null".data then .ok (.scalar .nullVal)
    else .ok (.ref (String.mk t.text))
  | _ => .error (.synError t.line t.col)

/-- Modelled from the spec (section 4.2): recursive descent over the
entries of the root object — `key : value` pairs separated by commas,
with a trailing comma accepted, stopping fail-fast at the first
grammar violation with a SyntaxError at the offending token.  The fuel
starts at the token-list length and each step consumes at least one
token, so the fuel-exhaustion branch is never taken from `modelParse`. -/
def parseEntries (fuel : Nat) (toks : List Token) :
    Except ModelError (List (String × JValue) × List Token) :=
  match fuel, toks with
  | _, [] => .error (.synError 0 0)
  | 0, _ :: _ => .error (.synError 0 0)
  | fuel + 1, t :: rest =>
    if t.kind = .rbrace then .ok ([], rest)
    else if t.kind = .ident then
      match rest with
      | c :: vt :: rest2 =>
        if c.kind = .colon then
          match valueOfToken vt with
          | .error e => .error e
          | .ok v =>
            match rest2 with
            | [] => .error (.synError 0 0)
            | s :: rest3 =>
              if s.kind = .comma then
                (parseEntries fuel rest3).map (fun er => ((String.mk t.text, v) :: er.1, er.2))
              else if s.kind = .rbrace then .ok ([(String.mk t.text, v)], rest3)
              else .error (.synError s.line s.col)
        else .error (.synError c.line c.col)
      | _ => .error (.synError 0 0)
    else .error (.synError t.line t.col)

/-- Modelled from the spec (section 4.4 composition, restricted to the
flat root-object fragment): tokenize, then parse a root object covering
the whole input. -/
def modelParse (text : List Char) : Except ModelError (List (String × JValue)) :=
  match tokenize text with
  | .error e => .error e
  | .ok toks =>
    match toks with
    | [] => .error (.synError 0 0)
    | t :: rest =>
      if t.kind = .lbrace then
        match parseEntries rest.length rest with
        | .error e => .error e
        | .ok (env, rest2) =>
          match rest2 with
          | [e2] => if e2.kind = .eoi then .ok env else .error (.synError e2.line e2.col)
          | _ => .error (.synError 0 0)
      else .error (.synError t.line t.col)

/-- Modelled from the spec (section 4.3): lookup of a top-level key in
the root object's namespace; per section 4.2 duplicate keys are
last-occurrence-wins. -/
def lookupKey (env : List (String × JValue)) (k : String) : Option JValue :=
  (env.reverse.find? (fun p => p.1 == k)).map (fun p => p.2)

/-- The reference out-edge of a key: `some k2` when the key's value is a
reference to `k2`. -/
def stepRef (env : List (String × JValue)) (k : String) : Option String :=
  match lookupKey env k with
  | some (.ref k2) => some k2
  | _ => none

/-- `n`-fold iteration of `stepRef`. -/
def stepRefN (env : List (String × JValue)) : Nat → String → Option String
  | 0, k => some k
  | n + 1, k => (stepRef env k).bind (stepRefN env n)

/-- The root object contains a reference cycle: some key reaches itself
by following references. -/
def HasCycle (env : List (String × JValue)) : Prop :=
  ∃ k n, stepRefN env (n + 1) k = some k

/-- Every reference in the root object targets an existing key. -/
def noUndefRefs (env : List (String × JValue)) : Bool :=
  env.all (fun p => match p.2 with
    | .ref k2 => (lookupKey env k2).isSome
    | _ => true)

/-- The edge relation of the reference dependency graph. -/
def RefStep (env : List (String × JValue)) (a b : String) : Prop :=
  stepRef env a = some b

/-- Modelled from the spec (section 4.3): three-color depth-first
resolution of one key.  `stack` is the in-progress chain; a key already
on the stack is a circular reference, reported with the chain plus the
re-entered key as the cycle path; a key absent from the namespace is an
undefined reference; resolving a scalar succeeds.  The fuel bounds the
recursion and is always sufficient when started at `env.length + 1`. -/
def resolveKey (env : List (String × JValue)) : Nat → List String → String → Except ModelError Scalar
  | 0, _, _ => .error (.refCircular [])
  | fuel + 1, stack, k =>
    if k ∈ stack then .error (.refCircular (stack ++ [k]))
    else
      match lookupKey env k with
      | none => .error (.refUndefined k)
      | some (.scalar s) => .ok s
      | some (.ref k2) => resolveKey env fuel (stack ++ [k]) k2

/-- Modelled from the spec (sections 4.3 and 7): fail-fast resolution of
every top-level key in declaration order. -/
def resolveAllGo (env : List (String × JValue)) :
    List (String × JValue) → Except ModelError (List (String × Scalar))
  | [] => .ok []
  | (k, _) :: rest =>
    match resolveKey env (env.length + 1) [] k with
    | .error e => .error e
    | .ok s => (resolveAllGo env rest).map (fun es => (k, s) :: es)

/-- Resolution of the whole root object. -/
def resolveAll (env : List (String × JValue)) : Except ModelError (List (String × Scalar)) :=
  resolveAllGo env env

/-- Modelled from the spec (section 4.4): parse, then resolve. -/
def parseAndResolve (text : List Char) : Except ModelError (List (String × Scalar)) :=
  match modelParse text with
  | .error e => .error e
  | .ok env => resolveAll env

/-- A key, once every reference chain from it stays defined forever,
never reaches a scalar: every iterate of `stepRef` from it exists. -/
def Doomed (env : List (String × JValue)) (k : String) : Prop :=
  ∀ n, (stepRefN env n k).isSome

/-- The input text of claim C6: a brace, a space, the key, a colon, a
space and the closing brace — an object entry with a missing value. -/
def textC6 : List Char := ['{', ' ', 'a', ':', ' ', '}']

/-- The input text of claim C7's witness: two entries referring to each
other. -/
def textAB : List Char :=
  ['{', ' ', 'a', ':', ' ', 'b', ',', ' ', 'b', ':', ' ', 'a', ' ', '}']

/-- The root object parsed from `textAB`. -/
def envAB : List (String × JValue) := [("a", .ref "b"), ("b", .ref "a")]

/-- The input text of claim C7's counterexample: an undefined reference
in the first entry and a reference cycle in the remaining two. -/
def textCyc : List Char :=
  ['{', ' ', 'x', ':', ' ', 'm', 'i', 's', 's', 'i', 'n', 'g', ',', ' ',
   'a', ':', ' ', 'b', ',', ' ', 'b', ':', ' ', 'a', ' ', '}']

/-- The root object parsed from `textCyc`. -/
def envCyc : List (String × JValue) :=
  [("x", .ref "missing"), ("a", .ref "b"), ("b", .ref "a")]

theorem getProp_ok_of_not_nullish (v : JSVal) (name : String)
    (h1 : v ≠ JSVal.null) (h2 : v ≠ JSVal.undefined) :
    ∃ r, getProp v name = Except.ok r := by
  cases v with
  | null => exact absurd rfl h1
  | undefined => exact absurd rfl h2
  | obj fields => exact ⟨_, rfl⟩
  | bool b => exact ⟨_, rfl⟩
  | num n => exact ⟨_, rfl⟩
  | str s => exact ⟨_, rfl⟩

theorem not_nullish_of_getProp_ok (v : JSVal) (name : String) (r : JSVal)
    (h : getProp v name = Except.ok r) : v ≠ JSVal.null ∧ v ≠ JSVal.undefined := by
  constructor <;> rintro rfl <;> simp [getProp] at h

/-- Describes how the catch clause turns one positional field of the
thrown value (`line` or `column`) into the reported coordinate. -/
theorem jsOr_coord_spec (e : JSVal) (nm : String)
    (h : getProp e nm = Except.ok JSVal.undefined ∨
      ∃ n : Int, 1 ≤ n ∧ getProp e nm = Except.ok (JSVal.num n)) :
    ∃ v l, getProp e nm = Except.ok v ∧ jsOr v (JSVal.num 1) = JSVal.num l ∧ 1 ≤ l ∧
      (getProp e nm = Except.ok JSVal.undefined → l = 1) ∧
      (∀ n : Int, getProp e nm = Except.ok (JSVal.num n) → l = n) := by
  rcases h with h | ⟨n, hn, h⟩
  · refine ⟨JSVal.undefined, 1, h, rfl, le_refl 1, fun _ => rfl, fun n hn2 => ?_⟩
    rw [h] at hn2
    injection hn2 with hv
    exact JSVal.noConfusion hv
  · have hne : (n != 0) = true := by
      simp only [bne_iff_ne, ne_eq]
      omega
    refine ⟨JSVal.num n, n, h, ?_, hn, ?_, ?_⟩
    · simp [jsOr, jsTruthy, hne]
    · intro h2
      rw [h] at h2
      injection h2 with hv
      exact JSVal.noConfusion hv
    · intro m hm
      rw [h] at hm
      injection hm with hv
      injection hv

/-- C1 (amended): every exception thrown by `parseWithOptions` whose
thrown value is not `null` and not `undefined` is caught and converted
into a returned `{ok: false, errors: [...]}` value, and `parse` then
returns normally; a successful inner parse also returns normally. -/
theorem claim_C1 (pw : String → ParserOptions → Except JSVal JSVal)
    (file : JsFile) (context : JsContext)
    (h : ∀ e, pw file.body (computeParserOptions (context.languageOptions.getD {})) =
      Except.error e → e ≠ JSVal.null ∧ e ≠ JSVal.undefined) :
    (∃ r, jsonvLanguage.parse pw file context = Except.ok r) ∧
    (∀ e, pw file.body (computeParserOptions (context.languageOptions.getD {})) =
      Except.error e →
      ∃ errs, jsonvLanguage.parse pw file context = Except.ok (ParseReturn.failure errs)) := by
  cases hpw : pw file.body (computeParserOptions (context.languageOptions.getD {})) with
  | ok v =>
    constructor
    · refine ⟨ParseReturn.success emptyProgramAst v, ?_⟩
      simp only [jsonvLanguage.parse, hpw]
    · intro e he
      simp [hpw] at he
  | error e =>
    obtain ⟨hn, hu⟩ := h e hpw
    obtain ⟨m, hm⟩ := getProp_ok_of_not_nullish e "message" hn hu
    obtain ⟨l, hl⟩ := getProp_ok_of_not_nullish e "line" hn hu
    obtain ⟨c, hc⟩ := getProp_ok_of_not_nullish e "column" hn hu
    have hres : jsonvLanguage.parse pw file context =
        Except.ok (ParseReturn.failure [⟨m, jsOr l (.num 1), jsOr c (.num 1)⟩]) := by
      simp only [jsonvLanguage.parse, jsonvLanguage.catchClause, hpw, hm, hl, hc]
    exact ⟨⟨_, hres⟩, fun _ _ => ⟨_, hres⟩⟩

/-- C1 counterexample: when `parseWithOptions` throws the JavaScript value
`null` (a legal thrown value that is not an Error object), the catch
block's `error.message` access itself throws a TypeError that escapes
`parse` instead of being converted into an `{ok: false}` return. -/
theorem claim_C1_counterexample :
    jsonvLanguage.parse throwNullParse fileA ctxA =
      Except.error (JSVal.str "TypeError: cannot read properties of null") := rfl

/-- C1 witness: a thrown non-Error primitive value is caught and `parse`
returns normally. -/
theorem claim_C1_witness :
    ∃ r, jsonvLanguage.parse throwStrParse fileA ctxA = Except.ok r := by
  refine (claim_C1 throwStrParse fileA ctxA ?_).1
  intro e he
  have hback : JSVal.str "boom" = e := by injection he
  cases hback
  exact ⟨fun hc => JSVal.noConfusion hc, fun hc => JSVal.noConfusion hc⟩

/-- C2: when `parseWithOptions` throws an error carrying the documented
structured-error contract (`line`/`column` absent or a 1-based integer),
`parse` returns `{ok: false, errors: E}` where `E` is a one-element list
whose element has exactly the fields `message`, `line`, `column`; line
and column are taken from the thrown error's fields, default to 1 when
the field is absent, and respect the language's declared `lineStart = 1`
and `columnStart = 1`. -/
theorem claim_C2 (pw : String → ParserOptions → Except JSVal JSVal)
    (file : JsFile) (context : JsContext) (e : JSVal)
    (hpw : pw file.body (computeParserOptions (context.languageOptions.getD {})) =
      Except.error e)
    (hline : getProp e "line" = Except.ok JSVal.undefined ∨
      ∃ n : Int, 1 ≤ n ∧ getProp e "line" = Except.ok (JSVal.num n))
    (hcol : getProp e "column" = Except.ok JSVal.undefined ∨
      ∃ n : Int, 1 ≤ n ∧ getProp e "column" = Except.ok (JSVal.num n)) :
    ∃ (msg : JSVal) (l c : Int),
      jsonvLanguage.parse pw file context =
        Except.ok (ParseReturn.failure [⟨msg, JSVal.num l, JSVal.num c⟩]) ∧
      getProp e "message" = Except.ok msg ∧
      jsonvLanguage.lineStart ≤ l ∧ jsonvLanguage.columnStart ≤ c ∧
      (getProp e "line" = Except.ok JSVal.undefined → l = 1) ∧
      (∀ n : Int, getProp e "line" = Except.ok (JSVal.num n) → l = n) ∧
      (getProp e "column" = Except.ok JSVal.undefined → c = 1) ∧
      (∀ n : Int, getProp e "column" = Except.ok (JSVal.num n) → c = n) := by
  obtain ⟨lv, l, hgl, hjl, hl1, hlu, hln⟩ := jsOr_coord_spec e "line" hline
  obtain ⟨cv, c, hgc, hjc, hc1, hcu, hcn⟩ := jsOr_coord_spec e "column" hcol
  obtain ⟨hn, hu⟩ := not_nullish_of_getProp_ok e "line" lv hgl
  obtain ⟨m, hm⟩ := getProp_ok_of_not_nullish e "message" hn hu
  refine ⟨m, l, c, ?_, hm, hl1, hc1, hlu, hln, hcu, hcn⟩
  simp only [jsonvLanguage.parse, jsonvLanguage.catchClause, hpw, hm, hgl, hgc, hjl, hjc]

/-- C2 witness at a concrete thrown error object with message
"Unexpected token", line 2, column 5. -/
theorem claim_C2_witness :
    ∃ (msg : JSVal) (l c : Int),
      jsonvLanguage.parse throwErrObjParse fileA ctxA =
        Except.ok (ParseReturn.failure [⟨msg, JSVal.num l, JSVal.num c⟩]) ∧
      getProp errObjA "message" = Except.ok msg ∧
      jsonvLanguage.lineStart ≤ l ∧ jsonvLanguage.columnStart ≤ c ∧
      (getProp errObjA "line" = Except.ok JSVal.undefined → l = 1) ∧
      (∀ n : Int, getProp errObjA "line" = Except.ok (JSVal.num n) → l = n) ∧
      (getProp errObjA "column" = Except.ok JSVal.undefined → c = 1) ∧
      (∀ n : Int, getProp errObjA "column" = Except.ok (JSVal.num n) → c = n) :=
  claim_C2 throwErrObjParse fileA ctxA errObjA rfl
    (Or.inr ⟨2, by norm_num, rfl⟩) (Or.inr ⟨5, by norm_num, rfl⟩)

/-- C3 counterexample: with every language option omitted, the options
record handed to `parseWithOptions` carries `preserveComments = true`,
not the documented default `false`. -/
theorem claim_C3_counterexample :
    (computeParserOptions {}).preserveComments = true ∧
    ¬ (computeParserOptions {}).preserveComments = false := by
  decide

/-- C3 (amended): with `year` and `strictBigInt` omitted the adapter
passes year 2025, strictBigInt false, mode "jsonv" (the most
permissive) and tolerant false — but always preserveComments true, not
the documented default false. -/
theorem claim_C3 (o : LangOptions) (hy : o.year = none) (hs : o.strictBigInt = none) :
    computeParserOptions o =
      { year := 2025, strictBigInt := false, mode := "jsonv",
        preserveComments := true, tolerant := false } := by
  simp [computeParserOptions, hy, hs]

/-- C3 witness: the empty options record. -/
theorem claim_C3_witness :
    computeParserOptions {} =
      { year := 2025, strictBigInt := false, mode := "jsonv",
        preserveComments := true, tolerant := false } :=
  claim_C3 {} rfl rfl

/-- C4: `parse` is deterministic and depends only on `file.body` and
`context.languageOptions` — two calls agreeing on those produce
structurally identical results. -/
theorem claim_C4 (pw : String → ParserOptions → Except JSVal JSVal)
    (f1 f2 : JsFile) (c1 c2 : JsContext)
    (hb : f1.body = f2.body) (ho : c1.languageOptions = c2.languageOptions) :
    jsonvLanguage.parse pw f1 c1 = jsonvLanguage.parse pw f2 c2 := by
  unfold jsonvLanguage.parse
  rw [hb, ho]

/-- C4 witness: same body and languageOptions, different path and cwd. -/
theorem claim_C4_witness :
    jsonvLanguage.parse echoParse fileA ctxA = jsonvLanguage.parse echoParse fileB ctxB :=
  claim_C4 echoParse fileA fileB ctxA ctxB rfl rfl

/-- C8: on success `parse` returns the fixed empty Program AST
independent of the input — type "Program", empty body, comments and
tokens, sourceType "module" — with the parsed value exposed only through
the separate `jsonvValue` field. -/
theorem claim_C8 (pw : String → ParserOptions → Except JSVal JSVal)
    (file : JsFile) (context : JsContext) (v : JSVal)
    (h : pw file.body (computeParserOptions (context.languageOptions.getD {})) =
      Except.ok v) :
    jsonvLanguage.parse pw file context = Except.ok (ParseReturn.success emptyProgramAst v) ∧
    emptyProgramAst.type = "Program" ∧ emptyProgramAst.body = [] ∧
    emptyProgramAst.sourceType = "module" ∧ emptyProgramAst.comments = [] ∧
    emptyProgramAst.tokens = [] := by
  refine ⟨?_, rfl, rfl, rfl, rfl, rfl⟩
  simp only [jsonvLanguage.parse, h]

/-- C8 witness at a concrete successful parse. -/
theorem claim_C8_witness :
    jsonvLanguage.parse echoParse fileA ctxA =
      Except.ok (ParseReturn.success emptyProgramAst (JSVal.str "x")) ∧
    emptyProgramAst.type = "Program" ∧ emptyProgramAst.body = [] ∧
    emptyProgramAst.sourceType = "module" ∧ emptyProgramAst.comments = [] ∧
    emptyProgramAst.tokens = [] :=
  claim_C8 echoParse fileA ctxA (JSVal.str "x") rfl

/-- C10: `validateLanguageOptions` accepts every possible value: it
performs no checks, never throws, and returns `undefined`. -/
theorem claim_C10 (o : JSVal) :
    jsonvLanguage.validateLanguageOptions o = Except.ok JSVal.undefined := rfl

theorem splitLinesAux_append (a : List Char) :
    ∀ acc t, (∀ c ∈ a, isLineBreakChar c = false) →
      splitLinesAux acc (a ++ t) = splitLinesAux (a.reverse ++ acc) t := by
  induction a with
  | nil => intro acc t _; simp
  | cons c a ih =>
    intro acc t h
    have hc : isLineBreakChar c = false := h c (List.mem_cons_self c a)
    have hstep : splitLinesAux acc ((c :: a) ++ t) = splitLinesAux (c :: acc) (a ++ t) := by
      rw [List.cons_append, splitLinesAux.eq_def]
      simp [hc]
    rw [hstep, ih (c :: acc) t (fun d hd => h d (List.mem_cons_of_mem c hd))]
    simp

theorem splitLinesAux_break (acc b d : List Char)
    (hd : d ∈ [['\n'], ['\r', '\n'], ['\r'], ['\u2028'], ['\u2029']])
    (hr : d = ['\r'] → b.head? ≠ some '\n') :
    splitLinesAux acc (d ++ b) = acc.reverse :: splitLines b := by
  simp only [List.mem_cons, List.mem_singleton, List.not_mem_nil, or_false] at hd
  rcases hd with rfl | rfl | rfl | rfl | rfl
  · rw [List.singleton_append, splitLinesAux.eq_def]
    simp [splitLines, isLineBreakChar]
  · rw [List.cons_append, List.singleton_append, splitLinesAux.eq_def]
    simp [splitLines, isLineBreakChar]
  · cases b with
    | nil =>
      rw [List.singleton_append, splitLinesAux.eq_def]
      simp [splitLines, splitLinesAux, isLineBreakChar]
    | cons c2 rest2 =>
      have hc2 : ¬ c2 = '\n' := by
        intro hh
        exact hr rfl (by rw [hh]; rfl)
      rw [List.singleton_append, splitLinesAux.eq_def]
      simp [splitLines, isLineBreakChar, hc2]
  · rw [List.singleton_append, splitLinesAux.eq_def]
    simp [splitLines, isLineBreakChar]
  · rw [List.singleton_append, splitLinesAux.eq_def]
    simp [splitLines, isLineBreakChar]

/-- C5: the `lines` array of the source-code object and the result of
`getLines` are both the split of the text on exactly the five
line-break forms newline, carriage-return + newline, carriage return,
U+2028 and U+2029, each occurrence counting as a single break: a
break-free text is one line, and stripping one leading break-free line
plus one break form peels exactly one line off the split, with the
two-character `\r\n` consumed as one break. -/
theorem claim_C5 (file : JsFile) (pr : ParseReturn) :
    (jsonvLanguage.createSourceCode file pr).lines = splitLines file.body.data ∧
    jsonvLanguage.getLines file.body.data = splitLines file.body.data ∧
    (∀ a : List Char, (∀ c ∈ a, isLineBreakChar c = false) → splitLines a = [a]) ∧
    (∀ d ∈ [['\n'], ['\r', '\n'], ['\r'], ['\u2028'], ['\u2029']], ∀ a b : List Char,
      (∀ c ∈ a, isLineBreakChar c = false) → (d = ['\r'] → b.head? ≠ some '\n') →
      splitLines (a ++ d ++ b) = a :: splitLines b) := by
  refine ⟨rfl, rfl, ?_, ?_⟩
  · intro a ha
    have h1 : splitLinesAux [] (a ++ []) = splitLinesAux (a.reverse ++ []) [] :=
      splitLinesAux_append a [] [] ha
    simpa [splitLines, splitLinesAux] using h1
  · intro d hd a b ha hr
    have h1 : splitLinesAux [] (a ++ (d ++ b)) = splitLinesAux (a.reverse ++ []) (d ++ b) :=
      splitLinesAux_append a [] (d ++ b) ha
    have h2 : splitLinesAux a.reverse (d ++ b) = a.reverse.reverse :: splitLines b :=
      splitLinesAux_break a.reverse b d hd hr
    simp only [splitLines, List.append_assoc]
    rw [h1]
    simpa using h2

/-- C5 witness: the two-character sequence `\r\n` produces one break. -/
theorem claim_C5_witness : splitLines ['a', '\r', '\n', 'b'] = [['a'], ['b']] := by
  have h := claim_C5 fileA (ParseReturn.failure [])
  have h1 := h.2.2.2 ['\r', '\n'] (by simp) ['a'] ['b'] (by decide) (by decide)
  have h2 := h.2.2.1 ['b'] (by decide)
  rw [show (['a', '\r', '\n', 'b'] : List Char) = ['a'] ++ ['\r', '\n'] ++ ['b'] from rfl,
    h1, h2]

theorem jsSliceIndex_le (len : Nat) (i : Int) : jsSliceIndex len i ≤ len := by
  unfold jsSliceIndex
  split
  · have h1 : max ((len : Int) + i) 0 ≤ (len : Int) := by
      apply max_le <;> omega
    omega
  · exact Nat.min_le_right _ _

theorem jsSlice_substring (text : List Char) (s e : Int) :
    ∃ i j, i ≤ j ∧ j ≤ text.length ∧ jsSlice text s e = (text.drop i).take (j - i) := by
  unfold jsSlice
  by_cases hab : jsSliceIndex text.length e ≤ jsSliceIndex text.length s
  · refine ⟨text.length, text.length, le_refl _, le_refl _, ?_⟩
    rw [Nat.sub_eq_zero_of_le hab, Nat.sub_self]
    simp
  · exact ⟨jsSliceIndex text.length s, jsSliceIndex text.length e,
      le_of_not_le hab, jsSliceIndex_le text.length e, rfl⟩

/-- C9: `getText` always returns a contiguous substring of the text,
delimited by effective bounds inside `[0, text.length]`, and returns the
entire text when the node is absent or has no range. -/
theorem claim_C9 (text : List Char) (node : Option ENode) (b a : Option Int) :
    (∃ i j, i ≤ j ∧ j ≤ text.length ∧
      jsonvLanguage.getText text node b a = (text.drop i).take (j - i)) ∧
    (node = none → jsonvLanguage.getText text node b a = text) ∧
    (∀ n, node = some n → n.range = none → jsonvLanguage.getText text node b a = text) := by
  have hwhole : ∃ i j, i ≤ j ∧ j ≤ text.length ∧ text = (text.drop i).take (j - i) := by
    refine ⟨0, text.length, Nat.zero_le _, le_refl _, ?_⟩
    simp
  cases node with
  | none =>
    refine ⟨hwhole, fun _ => rfl, ?_⟩
    intro n hn
    exact absurd hn (by simp)
  | some n =>
    cases hr : n.range with
    | none =>
      refine ⟨?_, ?_, ?_⟩
      · simpa [jsonvLanguage.getText, hr] using hwhole
      · intro hh; exact absurd hh (by simp)
      · intro n2 hn2 _
        simp [jsonvLanguage.getText, hr]
    | some se =>
      obtain ⟨s, e⟩ := se
      refine ⟨?_, ?_, ?_⟩
      · simpa [jsonvLanguage.getText, hr] using
          jsSlice_substring text (max 0 (s - b.getD 0)) (min (text.length : Int) (e + a.getD 0))
      · intro hh; exact absurd hh (by simp)
      · intro n2 hn2 hr2
        have : n2 = n := by injection hn2.symm
        rw [this, hr] at hr2
        exact absurd hr2 (by simp)

/-- C9 witness: a node whose range runs past the end of the text. -/
theorem claim_C9_witness :
    (∃ i j, i ≤ j ∧ j ≤ (['a', 'b'] : List Char).length ∧
      jsonvLanguage.getText ['a', 'b'] (some ⟨some (0, 5)⟩) (some 3) (some 4) =
        ((['a', 'b'] : List Char).drop i).take (j - i)) ∧
    ((some ⟨some (0, 5)⟩ : Option ENode) = none →
      jsonvLanguage.getText ['a', 'b'] (some ⟨some (0, 5)⟩) (some 3) (some 4) = ['a', 'b']) ∧
    (∀ n, (some ⟨some (0, 5)⟩ : Option ENode) = some n → n.range = none →
      jsonvLanguage.getText ['a', 'b'] (some ⟨some (0, 5)⟩) (some 3) (some 4) = ['a', 'b']) :=
  claim_C9 ['a', 'b'] (some ⟨some (0, 5)⟩) (some 3) (some 4)

/-- C6: for the malformed input with an object entry whose value is
missing, the modelled parse fails with a SyntaxError at line 1, column 6
— the position of the closing brace (the character at 0-based index 5
under the declared 1-based column start), not line 1, column 1. -/
theorem claim_C6 :
    modelParse textC6 = Except.error (ModelError.synError 1 6) ∧
    parseAndResolve textC6 = Except.error (ModelError.synError 1 6) ∧
    textC6.get? 5 = some '}' ∧
    ¬ modelParse textC6 = Except.error (ModelError.synError 1 1) := by
  refine ⟨rfl, rfl, rfl, ?_⟩
  intro h
  have h16 : modelParse textC6 = Except.error (ModelError.synError 1 6) := rfl
  rw [h16] at h
  injection h with hh
  injection hh with ha hb
  exact absurd hb (by decide)

theorem lookupKey_mem (env : List (String × JValue)) (k : String) (v : JValue)
    (h : lookupKey env k = some v) : (k, v) ∈ env := by
  unfold lookupKey at h
  obtain ⟨x, hx, hxv⟩ := Option.map_eq_some'.mp h
  obtain ⟨x1, x2⟩ := x
  have hmem := List.mem_of_find?_eq_some hx
  have hp := List.find?_some hx
  have hk : x1 = k := by simpa using hp
  have hv2 : x2 = v := hxv
  rw [hk, hv2] at hmem
  exact List.mem_reverse.mp hmem

theorem mem_keys_of_lookup_isSome (env : List (String × JValue)) (k : String)
    (h : (lookupKey env k).isSome = true) : k ∈ env.map Prod.fst := by
  obtain ⟨v, hv⟩ := Option.isSome_iff_exists.mp h
  exact List.mem_map.mpr ⟨(k, v), lookupKey_mem env k v hv, rfl⟩

theorem lookup_isSome_of_mem_keys (env : List (String × JValue)) (k : String)
    (h : k ∈ env.map Prod.fst) : (lookupKey env k).isSome = true := by
  obtain ⟨⟨k1, v⟩, hmem, hk⟩ := List.mem_map.mp h
  unfold lookupKey
  cases hf : env.reverse.find? (fun p => p.1 == k) with
  | none =>
    exfalso
    have hall := List.find?_eq_none.mp hf (k1, v) (List.mem_reverse.mpr hmem)
    simp at hall
    exact hall hk
  | some x => simp

theorem stepRefN_add (env : List (String × JValue)) (m n : Nat) :
    ∀ k, stepRefN env (m + n) k = (stepRefN env m k).bind (stepRefN env n) := by
  induction m with
  | zero =>
    intro k
    rw [Nat.zero_add]
    rfl
  | succ m ih =>
    intro k
    rw [Nat.succ_add]
    cases hs : stepRef env k with
    | none => simp only [stepRefN, hs, Option.none_bind]
    | some k2 =>
      simp only [stepRefN, hs, Option.some_bind]
      exact ih k2

theorem stepRefN_cycle_iter (env : List (String × JValue)) (k : String) (n : Nat)
    (hc : stepRefN env (n + 1) k = some k) :
    ∀ q, stepRefN env (q * (n + 1)) k = some k := by
  intro q
  induction q with
  | zero => rw [Nat.zero_mul]; rfl
  | succ q ih =>
    rw [Nat.succ_mul, stepRefN_add env (q * (n + 1)) (n + 1) k, ih]
    simpa using hc

theorem doomed_of_cycle (env : List (String × JValue)) (k : String) (n : Nat)
    (hc : stepRefN env (n + 1) k = some k) : Doomed env k := by
  intro m
  have hiter := stepRefN_cycle_iter env k n hc m
  have hsplit : m * (n + 1) = m + (m * (n + 1) - m) := by
    have : m ≤ m * (n + 1) := by
      calc m = m * 1 := (Nat.mul_one m).symm
      _ ≤ m * (n + 1) := Nat.mul_le_mul_left m (by omega)
    omega
  rw [hsplit, stepRefN_add] at hiter
  cases hm : stepRefN env m k with
  | none => rw [hm] at hiter; simp at hiter
  | some k2 => rfl

theorem doomed_step (env : List (String × JValue)) (k k2 : String)
    (hd : Doomed env k) (hs : stepRef env k = some k2) : Doomed env k2 := by
  intro m
  have h := hd (m + 1)
  simpa only [stepRefN, hs, Option.some_bind] using h

theorem doomed_lookup (env : List (String × JValue)) (k : String) (hd : Doomed env k) :
    ∃ k2, lookupKey env k = some (JValue.ref k2) ∧ stepRef env k = some k2 := by
  have h1 := hd (0 + 1)
  cases hlk : lookupKey env k with
  | none =>
    exfalso
    have hs : stepRef env k = none := by simp [stepRef, hlk]
    simp [stepRefN, hs] at h1
  | some v =>
    cases v with
    | scalar s =>
      exfalso
      have hs : stepRef env k = none := by simp [stepRef, hlk]
      simp [stepRefN, hs] at h1
    | ref k2 =>
      exact ⟨k2, rfl, by simp [stepRef, hlk]⟩

theorem stack_overflow_absurd (env : List (String × JValue)) (stack : List String)
    (hnd : stack.Nodup) (hsub : ∀ x ∈ stack, x ∈ env.map Prod.fst)
    (h : env.length + 1 ≤ stack.length) : False := by
  have hsp : stack.Subperm (env.map Prod.fst) := List.subperm_of_subset hnd hsub
  have hlen := hsp.length_le
  rw [List.length_map] at hlen
  omega

theorem circ_path_props (env : List (String × JValue)) (stack : List String) (k : String)
    (hin : k ∈ stack) (hch : List.Chain' (RefStep env) (stack ++ [k])) :
    List.Chain' (RefStep env) (stack ++ [k]) ∧
    ∃ k2, (stack ++ [k]).getLast? = some k2 ∧ k2 ∈ (stack ++ [k]).dropLast := by
  refine ⟨hch, k, ?_, ?_⟩
  · simp
  · simpa using hin

theorem stack_inv_extend (env : List (String × JValue)) (stack : List String) (k k2 : String)
    (hin : k ∉ stack) (hkmem : k ∈ env.map Prod.fst)
    (hnd : stack.Nodup) (hsub : ∀ x ∈ stack, x ∈ env.map Prod.fst)
    (hch : List.Chain' (RefStep env) (stack ++ [k])) (hstep : stepRef env k = some k2) :
    (stack ++ [k]).Nodup ∧ (∀ x ∈ stack ++ [k], x ∈ env.map Prod.fst) ∧
    List.Chain' (RefStep env) ((stack ++ [k]) ++ [k2]) := by
  refine ⟨?_, ?_, ?_⟩
  · rw [List.nodup_append]
    exact ⟨hnd, List.nodup_singleton k,
      fun x hx hxk => hin (List.eq_of_mem_singleton hxk ▸ hx)⟩
  · intro x hx
    rcases List.mem_append.mp hx with h1 | h2
    · exact hsub x h1
    · rw [List.eq_of_mem_singleton h2]
      exact hkmem
  · rw [List.chain'_append]
    refine ⟨hch, List.chain'_singleton k2, ?_⟩
    intro x hx y hy
    have hlast : (stack ++ [k]).getLast? = some k := by simp
    rw [hlast] at hx
    have hx2 : k = x := by simpa using hx
    have hy2 : k2 = y := by simpa using hy
    rw [← hx2, ← hy2]
    exact hstep

theorem resolveKey_doomed (env : List (String × JValue)) :
    ∀ fuel stack k, Doomed env k → stack.Nodup →
      (∀ x ∈ stack, x ∈ env.map Prod.fst) →
      List.Chain' (RefStep env) (stack ++ [k]) →
      env.length + 1 ≤ fuel + stack.length →
      ∃ p, resolveKey env fuel stack k = Except.error (ModelError.refCircular p) ∧
        List.Chain' (RefStep env) p ∧ ∃ k2, p.getLast? = some k2 ∧ k2 ∈ p.dropLast := by
  intro fuel
  induction fuel with
  | zero =>
    intro stack k _ hnd hsub _ harith
    exact (stack_overflow_absurd env stack hnd hsub (by omega)).elim
  | succ fuel ih =>
    intro stack k hd hnd hsub hch harith
    by_cases hin : k ∈ stack
    · obtain ⟨h2, h3⟩ := circ_path_props env stack k hin hch
      exact ⟨stack ++ [k], by simp [resolveKey, hin], h2, h3⟩
    · obtain ⟨k2, hlk, hstep⟩ := doomed_lookup env k hd
      have hkmem : k ∈ env.map Prod.fst :=
        mem_keys_of_lookup_isSome env k (by rw [hlk]; rfl)
      have hd2 : Doomed env k2 := doomed_step env k k2 hd hstep
      obtain ⟨hnd2, hsub2, hch2⟩ := stack_inv_extend env stack k k2 hin hkmem hnd hsub hch hstep
      have harith2 : env.length + 1 ≤ fuel + (stack ++ [k]).length := by
        rw [List.length_append]
        simp only [List.length_singleton]
        omega
      have hres : resolveKey env (fuel + 1) stack k = resolveKey env fuel (stack ++ [k]) k2 := by
        simp [resolveKey, hin, hlk]
      obtain ⟨p, hp, hchp, hlastp⟩ := ih (stack ++ [k]) k2 hd2 hnd2 hsub2 hch2 harith2
      exact ⟨p, hres.trans hp, hchp, hlastp⟩

theorem resolveKey_err_shape (env : List (String × JValue)) (hnu : noUndefRefs env = true) :
    ∀ fuel stack k, k ∈ env.map Prod.fst → stack.Nodup →
      (∀ x ∈ stack, x ∈ env.map Prod.fst) →
      List.Chain' (RefStep env) (stack ++ [k]) →
      env.length + 1 ≤ fuel + stack.length →
      (∃ s, resolveKey env fuel stack k = Except.ok s) ∨
      (∃ p, resolveKey env fuel stack k = Except.error (ModelError.refCircular p) ∧
        List.Chain' (RefStep env) p ∧ ∃ k2, p.getLast? = some k2 ∧ k2 ∈ p.dropLast) := by
  intro fuel
  induction fuel with
  | zero =>
    intro stack k _ hnd hsub _ harith
    exact (stack_overflow_absurd env stack hnd hsub (by omega)).elim
  | succ fuel ih =>
    intro stack k hkmem hnd hsub hch harith
    by_cases hin : k ∈ stack
    · right
      obtain ⟨h2, h3⟩ := circ_path_props env stack k hin hch
      exact ⟨stack ++ [k], by simp [resolveKey, hin], h2, h3⟩
    · obtain ⟨v, hlk⟩ := Option.isSome_iff_exists.mp (lookup_isSome_of_mem_keys env k hkmem)
      cases v with
      | scalar s =>
        left
        exact ⟨s, by simp [resolveKey, hin, hlk]⟩
      | ref k2 =>
        have hk2mem : k2 ∈ env.map Prod.fst := by
          have hmem := lookupKey_mem env k _ hlk
          have hall := List.all_eq_true.mp hnu (k, JValue.ref k2) hmem
          exact mem_keys_of_lookup_isSome env k2 (by simpa using hall)
        have hstep : stepRef env k = some k2 := by simp [stepRef, hlk]
        obtain ⟨hnd2, hsub2, hch2⟩ := stack_inv_extend env stack k k2 hin hkmem hnd hsub hch hstep
        have harith2 : env.length + 1 ≤ fuel + (stack ++ [k]).length := by
          rw [List.length_append]
          simp only [List.length_singleton]
          omega
        have hres : resolveKey env (fuel + 1) stack k = resolveKey env fuel (stack ++ [k]) k2 := by
          simp [resolveKey, hin, hlk]
        rcases ih (stack ++ [k]) k2 hk2mem hnd2 hsub2 hch2 harith2 with ⟨s, hs⟩ | ⟨p, hp, h2, h3⟩
        · exact Or.inl ⟨s, hres.trans hs⟩
        · exact Or.inr ⟨p, hres.trans hp, h2, h3⟩

theorem resolveAllGo_circ (env : List (String × JValue)) (hnu : noUndefRefs env = true) :
    ∀ entries, (∀ x ∈ entries, x ∈ env) → (∃ kv, kv ∈ entries ∧ Doomed env kv.1) →
      ∃ p, resolveAllGo env entries = Except.error (ModelError.refCircular p) ∧
        List.Chain' (RefStep env) p ∧ ∃ k2, p.getLast? = some k2 ∧ k2 ∈ p.dropLast := by
  intro entries
  induction entries with
  | nil =>
    rintro _ ⟨kv, hkv, _⟩
    exact absurd hkv (List.not_mem_nil kv)
  | cons hd tl ih =>
    rintro hsub ⟨kv, hkvmem, hkvd⟩
    obtain ⟨k, v⟩ := hd
    have hkmem : k ∈ env.map Prod.fst :=
      List.mem_map.mpr ⟨(k, v), hsub (k, v) (List.mem_cons_self _ _), rfl⟩
    have hempty : ∀ x ∈ ([] : List String), x ∈ env.map Prod.fst := by
      intro x hx
      exact absurd hx (List.not_mem_nil x)
    have hchain : List.Chain' (RefStep env) ([] ++ [k]) := by
      simp
    rcases resolveKey_err_shape env hnu (env.length + 1) [] k hkmem List.nodup_nil
        hempty hchain (by simp) with ⟨s, hs⟩ | ⟨p, hp, hchp, hlastp⟩
    · have hkvtl : kv ∈ tl := by
        rcases List.mem_cons.mp hkvmem with heq | htl
        · exfalso
          obtain ⟨p, hp, _⟩ := resolveKey_doomed env (env.length + 1) [] k
            (by rw [heq] at hkvd; exact hkvd) List.nodup_nil hempty hchain (by simp)
          rw [hs] at hp
          exact Except.noConfusion hp
        · exact htl
      obtain ⟨p, hp, hprops⟩ := ih (fun x hx => hsub x (List.mem_cons_of_mem _ hx)) ⟨kv, hkvtl, hkvd⟩
      refine ⟨p, ?_, hprops⟩
      simp only [resolveAllGo, hs, hp]
      rfl
    · exact ⟨p, by simp only [resolveAllGo, hp], hchp, hlastp⟩

theorem resolveAll_circ (env : List (String × JValue)) (hnu : noUndefRefs env = true)
    (hc : HasCycle env) :
    ∃ p, resolveAll env = Except.error (ModelError.refCircular p) ∧
      List.Chain' (RefStep env) p ∧ ∃ k2, p.getLast? = some k2 ∧ k2 ∈ p.dropLast := by
  obtain ⟨k0, n, hcyc⟩ := hc
  have hd0 : Doomed env k0 := doomed_of_cycle env k0 n hcyc
  obtain ⟨k2, hlk, _⟩ := doomed_lookup env k0 hd0
  have hmem : (k0, JValue.ref k2) ∈ env := lookupKey_mem env k0 _ hlk
  exact resolveAllGo_circ env hnu env (fun x hx => hx) ⟨(k0, JValue.ref k2), hmem, hd0⟩

/-- C7 (amended): for every input text that parses to a root object
whose references all target existing keys and that contains a reference
cycle, resolution fails with a ReferenceError of kind Circular whose
cycle path is a chain of the reference graph revisiting its last key —
a path through the cycle. -/
theorem claim_C7 (text : List Char) (env : List (String × JValue))
    (hp : modelParse text = Except.ok env) (hnu : noUndefRefs env = true)
    (hc : HasCycle env) :
    ∃ p, parseAndResolve text = Except.error (ModelError.refCircular p) ∧
      List.Chain' (RefStep env) p ∧ ∃ k2, p.getLast? = some k2 ∧ k2 ∈ p.dropLast := by
  obtain ⟨p, hres, h2, h3⟩ := resolveAll_circ env hnu hc
  refine ⟨p, ?_, h2, h3⟩
  simp only [parseAndResolve, hp]
  exact hres

/-- C7 counterexample: this input contains a reference cycle (`a` and
`b` refer to each other), yet resolution fails with an Undefined
reference error for the earlier entry `x`, not with a Circular error. -/
theorem claim_C7_counterexample :
    modelParse textCyc = Except.ok envCyc ∧
    HasCycle envCyc ∧
    parseAndResolve textCyc = Except.error (ModelError.refUndefined "missing") := by
  exact ⟨rfl, ⟨"a", 1, rfl⟩, rfl⟩

/-- C7 witness: the two-entry cycle with every reference defined. -/
theorem claim_C7_witness :
    ∃ p, parseAndResolve textAB = Except.error (ModelError.refCircular p) ∧
      List.Chain' (RefStep envAB) p ∧ ∃ k2, p.getLast? = some k2 ∧ k2 ∈ p.dropLast :=
  claim_C7 textAB envAB rfl rfl ⟨"a", 1, rfl⟩
